import Mathlib

/-!
Verification of the access-limited ordinary-percolation (drainage) engine of
OpenPNM, as described by the repository's design specification and exercised by
`examples/applications/mercury_intrusion.ipynb`.  The implementation of the
`Drainage` algorithm itself is not part of the available sources (only its
caller, the notebook, is), so the engine is modelled from the specification:
graph store, threshold table, connectivity engine, invasion scheduler and curve
assembler.  Pressures and thresholds live in an arbitrary linear order `P`
(physically: real numbers); a missing threshold is represented by `⊤` in
`WithTop P`, i.e. "+infinity, never invadable".
-/

namespace PNM

/-- Modelled from the spec: a Throat is an edge between exactly two pores, with
a stable integer identity.  (The threshold value lives in the separate
Threshold Table, keyed by identity.) -/
structure Throat where
  tid : ℕ
  ends : ℕ × ℕ
  deriving DecidableEq, Repr

/-- Modelled from the spec: the static graph — pores `0, …, numPores-1`,
the inlet boundary pores, and the list of throats.  Static for the whole run. -/
structure Network where
  numPores : ℕ
  inlets : List ℕ
  throats : List Throat
  deriving DecidableEq, Repr

/-- Modelled from the spec: a graph element is either a Pore or a Throat,
referred to by identity. -/
inductive Elem where
  | pore (i : ℕ)
  | throat (i : ℕ)
  deriving DecidableEq, Repr

variable {P : Type*} [LinearOrder P]

/-- Modelled from the spec: the threshold of a throat as read from the
Threshold Table; an absent entry is treated as `⊤` (+infinity), so the throat
is never invadable at any finite pressure. -/
def thrW (tbl : ℕ → Option P) (t : Throat) : WithTop P :=
  match tbl t.tid with
  | none => ⊤
  | some x => (x : WithTop P)

/-- Modelled from the spec: the sort key order — ascending threshold, ties
broken by the stable secondary key of lowest throat identity. -/
def keyLE (tbl : ℕ → Option P) (a b : Throat) : Prop :=
  thrW tbl a < thrW tbl b ∨ (thrW tbl a = thrW tbl b ∧ a.tid ≤ b.tid)

instance (tbl : ℕ → Option P) : DecidableRel (keyLE tbl) := fun a b => by
  unfold keyLE; infer_instance

instance (tbl : ℕ → Option P) : IsTotal Throat (keyLE tbl) where
  total a b := by
    rcases lt_trichotomy (thrW tbl a) (thrW tbl b) with h | h | h
    · exact Or.inl (Or.inl h)
    · rcases Nat.le_total a.tid b.tid with h2 | h2
      · exact Or.inl (Or.inr ⟨h, h2⟩)
      · exact Or.inr (Or.inr ⟨h.symm, h2⟩)
    · exact Or.inr (Or.inl h)

instance (tbl : ℕ → Option P) : IsTrans Throat (keyLE tbl) where
  trans a b c hab hbc := by
    rcases hab with h1 | ⟨h1, h1t⟩
    · rcases hbc with h2 | ⟨h2, _⟩
      · exact Or.inl (h1.trans h2)
      · exact Or.inl (h2 ▸ h1)
    · rcases hbc with h2 | ⟨h2, h2t⟩
      · exact Or.inl (h1 ▸ h2)
      · exact Or.inr ⟨h1.trans h2, h1t.trans h2t⟩

/-- Modelled from the spec: step 2 of the scheduler — sort all throats by
ascending threshold, ties broken by lowest throat identity. -/
def sortedThroats (net : Network) (tbl : ℕ → Option P) : List Throat :=
  List.insertionSort (keyLE tbl) net.throats

/-- Modelled from the spec: the throats whose connectivity link has been
released once the applied pressure reaches `p`, i.e. all throats of threshold
`≤ p`, in processed (sorted) order. -/
def releasedAt (net : Network) (tbl : ℕ → Option P) (p : P) : List Throat :=
  (sortedThroats net tbl).filter (fun t => decide (thrW tbl t ≤ (p : WithTop P)))

/-- Modelled from the spec: the undirected pore-adjacency edges contributed by
a list of throats. -/
def poreEdges (ts : List Throat) : List (ℕ × ℕ) :=
  ts.map Throat.ends

/-- Modelled from the spec (Connectivity Engine): pores one released edge away
from the set `s`. -/
def nbrs (es : List (ℕ × ℕ)) (s : List ℕ) : List ℕ :=
  (es.filter (fun e => decide (e.1 ∈ s))).map Prod.snd ++
    (es.filter (fun e => decide (e.2 ∈ s))).map Prod.fst

/-- Modelled from the spec (Connectivity Engine): one closure step of the
inlet-connected component computation. -/
def stepReach (es : List (ℕ × ℕ)) (s : List ℕ) : List ℕ :=
  s ++ nbrs es s

/-- Modelled from the spec (Connectivity Engine): fuelled closure of the
inlet-connected component; the engine's union-find is modelled by its
semantic contract (`is_connected_to_inlet(pore)` iff the pore is connected to
an inlet through released edges). -/
def reachAux : ℕ → List (ℕ × ℕ) → List ℕ → List ℕ
  | 0, _, s => s
  | k + 1, es, s => reachAux k es (stepReach es s)

/-- Modelled from the spec: the pores invaded once the applied pressure
reaches `p` — exactly the pores connected to an inlet through throats of
threshold `≤ p` (inlet pores are always invaded). -/
def invadedPores (net : Network) (tbl : ℕ → Option P) (p : P) : List ℕ :=
  reachAux (net.numPores + 1) (poreEdges (releasedAt net tbl p)) net.inlets

/-- Modelled from the spec: the throats invaded once the applied pressure
reaches `p` — released throats with at least one inlet-connected endpoint
(this realises the retroactive "access-confirmed" bookkeeping of §4.4b). -/
def invadedThroats (net : Network) (tbl : ℕ → Option P) (p : P) : List Throat :=
  (releasedAt net tbl p).filter
    (fun t => decide (t.ends.1 ∈ invadedPores net tbl p) ||
      decide (t.ends.2 ∈ invadedPores net tbl p))

/-- Modelled from the spec: the cumulative set of invaded elements at applied
pressure `p`. -/
def invadedSet (net : Network) (tbl : ℕ → Option P) (p : P) : Finset Elem :=
  ((invadedPores net tbl p).map Elem.pore).toFinset ∪
    ((invadedThroats net tbl p).map (fun t => Elem.throat t.tid)).toFinset

/-- Modelled from the spec: the elements invaded before any pressure step is
taken — exactly the inlet pores (marked invaded at initialization). -/
def baselineSet (net : Network) : Finset Elem :=
  (net.inlets.map Elem.pore).toFinset

/-- Modelled from the spec: the Invasion Record for a schedule of applied
pressures — one `(pressure, newly-invaded element set)` entry per requested
step; an empty newly-invaded set is a valid recorded event. -/
def recordAux (net : Network) (tbl : ℕ → Option P) :
    List P → Finset Elem → List (P × Finset Elem)
  | [], _ => []
  | p :: ps, prev =>
      (p, invadedSet net tbl p \ prev) :: recordAux net tbl ps (invadedSet net tbl p)

/-- Modelled from the spec: the fatal error taxonomy relevant to a run. -/
inductive DrainErr where
  | invalidBoundaryCondition
  deriving DecidableEq, Repr

/-- Modelled from the spec: a run — validate the boundary configuration
(at least one inlet pore, at least one throat) before producing any invasion
state, then produce the Invasion Record for the requested pressure steps. -/
def run (net : Network) (tbl : ℕ → Option P) (ps : List P) :
    Except DrainErr (List (P × Finset Elem)) :=
  if net.inlets = [] ∨ net.throats = [] then .error .invalidBoundaryCondition
  else .ok (recordAux net tbl ps (baselineSet net))

/-- Modelled from the spec: the scheduler's terminal states. -/
inductive RunStatus where
  | notStarted
  | running
  | completed
  | aborted
  deriving DecidableEq, Repr

/-- Modelled from the spec: the state reached by a run — `Completed` on
success, `Aborted` on invalid boundary conditions. -/
def runStatus (net : Network) (tbl : ℕ → Option P) (ps : List P) : RunStatus :=
  match run net tbl ps with
  | .ok _ => .completed
  | .error _ => .aborted

/-- Modelled from the spec: non-fatal diagnostics surfaced by a run. -/
inductive Diag where
  | missingProperty (tid : ℕ)
  deriving DecidableEq, Repr

/-- Modelled from the spec: the non-fatal `MissingProperty` diagnostics — one
per throat whose required physical input is absent from the threshold table. -/
def diagnostics (net : Network) (tbl : ℕ → Option P) : List Diag :=
  net.throats.filterMap
    (fun t => if (tbl t.tid).isNone then some (Diag.missingProperty t.tid) else none)

/-- Modelled from the spec: a path witness — the pore is an inlet, or it is
reached from an inlet through a chain of throats drawn from `R`, every pore on
the way lying in the set `S` (instantiated with the invaded pores, this is
"a path of invaded elements connecting it to an inlet Pore"). -/
inductive PorePath (net : Network) (R : List Throat) (S : List ℕ) : ℕ → Prop where
  | inlet (i : ℕ) : i ∈ net.inlets → i ∈ S → PorePath net R S i
  | step (b c : ℕ) (t : Throat) : PorePath net R S b → t ∈ R →
      (t.ends = (b, c) ∨ t.ends = (c, b)) → c ∈ S → PorePath net R S c

/-- Modelled from the spec: access limitation for an invaded element at
pressure `p` — a pore is linked to an inlet by a path of invaded elements; a
throat is invaded together with an inlet-linked endpoint pore. -/
def AccessJustified (net : Network) (tbl : ℕ → Option P) (p : P) : Elem → Prop
  | .pore i => PorePath net (releasedAt net tbl p) (invadedPores net tbl p) i
  | .throat j => ∃ t ∈ invadedThroats net tbl p, t.tid = j ∧
      (PorePath net (releasedAt net tbl p) (invadedPores net tbl p) t.ends.1 ∨
        PorePath net (releasedAt net tbl p) (invadedPores net tbl p) t.ends.2)

/-- Modelled from the spec (Connectivity Engine): two pores lie in the same
cluster when a chain of released edges connects them. -/
inductive Linked (es : List (ℕ × ℕ)) (a : ℕ) : ℕ → Prop where
  | refl : Linked es a a
  | fwd (b c : ℕ) : Linked es a b → (b, c) ∈ es → Linked es a c
  | bwd (b c : ℕ) : Linked es a b → (c, b) ∈ es → Linked es a c

/-- Modelled from the spec: the cluster relation at applied pressure `p`. -/
def SameCluster (net : Network) (tbl : ℕ → Option P) (p : P) (a b : ℕ) : Prop :=
  Linked (poreEdges (releasedAt net tbl p)) a b

/-- Modelled from the spec (Graph Store load-time checks): every inlet is a
pore of the network and every throat joins two pores of the network. -/
def ValidNet (net : Network) : Prop :=
  (∀ i ∈ net.inlets, i < net.numPores) ∧
    (∀ t ∈ net.throats, t.ends.1 < net.numPores ∧ t.ends.2 < net.numPores)

/-- Modelled from the spec (Curve Assembler): all elements of the network. -/
def allElems (net : Network) : Finset Elem :=
  (Finset.range net.numPores).image Elem.pore ∪
    (net.throats.map (fun t => Elem.throat t.tid)).toFinset

/-- Modelled from the spec (Curve Assembler): the total physical volume of the
network, from the external per-element volume property. -/
def totalVol (net : Network) (vol : Elem → ℚ) : ℚ :=
  (allElems net).sum vol

/-- Modelled from the spec (Curve Assembler): the saturation — invaded-volume
fraction — at applied pressure `p`. -/
def satAt (net : Network) (tbl : ℕ → Option P) (vol : Elem → ℚ) (p : P) : ℚ :=
  (invadedSet net tbl p).sum vol / totalVol net vol

/-- Modelled from the spec (Curve Assembler): the ordered
`(pressure, saturation)` sequence, one pair per distinct requested pressure
step (duplicate pressures collapse; the cumulative value is a function of the
pressure alone, so the collapsed value is the last cumulative value). -/
def pcCurve (net : Network) (tbl : ℕ → Option P) (vol : Elem → ℚ) (ps : List P) :
    List (P × ℚ) :=
  ps.dedup.map (fun p => (p, satAt net tbl vol p))

/-- Modelled from the spec (Threshold Model): the physical inputs of one
throat — interfacial tension, contact angle, characteristic radius. -/
structure PhysProps where
  sigma : ℝ
  theta : ℝ
  radius : ℝ

/-- Modelled from the spec (Threshold Model): the Washburn capillary-pressure
relation `P_c = -2 σ cos θ / r`. -/
noncomputable def washburn (q : PhysProps) : ℝ :=
  -2 * q.sigma * Real.cos q.theta / q.radius

/-- Modelled from the spec (Threshold Model): the Threshold Table, produced
once from the physical inputs and read-only thereafter; a throat with a
missing input has no entry. -/
noncomputable def thresholdTable (props : ℕ → Option PhysProps) (j : ℕ) : Option ℝ :=
  (props j).map washburn

/-- The 3-pore path graph A–B–C of the spec's concrete scenario: pores
`0 = A`, `1 = B`, `2 = C`, pore A flagged inlet, Throat 0 = (A,B),
Throat 1 = (B,C). -/
def net9 : Network := ⟨3, [0], [⟨0, (0, 1)⟩, ⟨1, (1, 2)⟩]⟩

/-- Threshold table of the concrete scenario: Throat(A,B) has threshold 10 and
Throat(B,C) has threshold 20. -/
def tbl9 : ℕ → Option ℤ :=
  fun j => if j = 0 then some 10 else if j = 1 then some 20 else none

/-- Unit volume for every element in the concrete scenario. -/
def vol9 : Elem → ℚ := fun _ => 1

theorem mem_nbrs {es : List (ℕ × ℕ)} {s : List ℕ} {x : ℕ} :
    x ∈ nbrs es s ↔ ∃ e ∈ es, (e.1 ∈ s ∧ e.2 = x) ∨ (e.2 ∈ s ∧ e.1 = x) := by
  simp only [nbrs, List.mem_append, List.mem_map, List.mem_filter, decide_eq_true_eq]
  constructor
  · rintro (⟨e, ⟨he, h1⟩, h2⟩ | ⟨e, ⟨he, h1⟩, h2⟩)
    · exact ⟨e, he, Or.inl ⟨h1, h2⟩⟩
    · exact ⟨e, he, Or.inr ⟨h1, h2⟩⟩
  · rintro ⟨e, he, ⟨h1, h2⟩ | ⟨h1, h2⟩⟩
    · exact Or.inl ⟨e, ⟨he, h1⟩, h2⟩
    · exact Or.inr ⟨e, ⟨he, h1⟩, h2⟩

theorem mem_stepReach {es : List (ℕ × ℕ)} {s : List ℕ} {x : ℕ} :
    x ∈ stepReach es s ↔ x ∈ s ∨ x ∈ nbrs es s :=
  List.mem_append

theorem subset_stepReach {es : List (ℕ × ℕ)} {s : List ℕ} : s ⊆ stepReach es s :=
  fun _ hx => List.mem_append.2 (Or.inl hx)

theorem stepReach_mono {es₁ es₂ : List (ℕ × ℕ)} {s₁ s₂ : List ℕ}
    (hes : es₁ ⊆ es₂) (hs : s₁ ⊆ s₂) : stepReach es₁ s₁ ⊆ stepReach es₂ s₂ := by
  intro x hx
  rcases mem_stepReach.1 hx with h | h
  · exact subset_stepReach (hs h)
  · rcases mem_nbrs.1 h with ⟨e, he, hc⟩
    refine mem_stepReach.2 (Or.inr (mem_nbrs.2 ⟨e, hes he, ?_⟩))
    rcases hc with ⟨h1, h2⟩ | ⟨h1, h2⟩
    · exact Or.inl ⟨hs h1, h2⟩
    · exact Or.inr ⟨hs h1, h2⟩

theorem subset_reachAux : ∀ (k : ℕ) (es : List (ℕ × ℕ)) (s : List ℕ), s ⊆ reachAux k es s := by
  intro k
  induction k with
  | zero => exact fun es s x hx => hx
  | succ k ih => exact fun es s x hx => ih es (stepReach es s) (subset_stepReach hx)

theorem reachAux_mono : ∀ (k : ℕ) {es₁ es₂ : List (ℕ × ℕ)} {s₁ s₂ : List ℕ},
    es₁ ⊆ es₂ → s₁ ⊆ s₂ → reachAux k es₁ s₁ ⊆ reachAux k es₂ s₂ := by
  intro k
  induction k with
  | zero => exact fun _ hs => hs
  | succ k ih => exact fun hes hs => ih hes (stepReach_mono hes hs)

theorem reachAux_bound {n : ℕ} : ∀ (k : ℕ) (es : List (ℕ × ℕ)) (s : List ℕ),
    (∀ x ∈ s, x < n) → (∀ e ∈ es, e.1 < n ∧ e.2 < n) →
    ∀ x ∈ reachAux k es s, x < n := by
  intro k
  induction k with
  | zero => exact fun es s hs _ x hx => hs x hx
  | succ k ih =>
    intro es s hs hes x hx
    refine ih es (stepReach es s) ?_ hes x hx
    intro y hy
    rcases mem_stepReach.1 hy with h | h
    · exact hs y h
    · rcases mem_nbrs.1 h with ⟨e, he, hc⟩
      rcases hc with ⟨_, h2⟩ | ⟨_, h2⟩
      · exact h2 ▸ (hes e he).2
      · exact h2 ▸ (hes e he).1

theorem porePath_reachAux (net : Network) (R : List Throat) (S : List ℕ) :
    ∀ (k : ℕ) (s : List ℕ), (∀ y ∈ s, PorePath net R S y) →
      reachAux k (poreEdges R) s ⊆ S →
      ∀ x ∈ reachAux k (poreEdges R) s, PorePath net R S x := by
  intro k
  induction k with
  | zero => exact fun s hbase _ x hx => hbase x hx
  | succ k ih =>
    intro s hbase hsub x hx
    refine ih (stepReach (poreEdges R) s) ?_ hsub x hx
    intro y hy
    rcases mem_stepReach.1 hy with h | h
    · exact hbase y h
    · have hyS : y ∈ S := hsub (subset_reachAux k _ _ hy)
      rcases mem_nbrs.1 h with ⟨e, he, hc⟩
      obtain ⟨a, b⟩ := e
      rcases List.mem_map.1 he with ⟨t, ht, hte⟩
      rcases hc with ⟨h1, h2⟩ | ⟨h1, h2⟩
      · subst h2
        exact PorePath.step a b t (hbase a h1) ht (Or.inl hte) hyS
      · subst h2
        exact PorePath.step b a t (hbase b h1) ht (Or.inr hte) hyS

theorem porePath_invadedPores (net : Network) (tbl : ℕ → Option P) (p : P) :
    ∀ x ∈ invadedPores net tbl p,
      PorePath net (releasedAt net tbl p) (invadedPores net tbl p) x := by
  intro x hx
  refine porePath_reachAux net (releasedAt net tbl p) (invadedPores net tbl p)
    (net.numPores + 1) net.inlets ?_ (fun y hy => hy) x hx
  intro y hy
  exact PorePath.inlet y hy (subset_reachAux _ _ _ hy)

theorem accessJustified_of_mem_invadedSet (net : Network) (tbl : ℕ → Option P) (p : P) :
    ∀ e ∈ invadedSet net tbl p, AccessJustified net tbl p e := by
  intro e he
  rcases Finset.mem_union.1 he with h | h
  · rcases List.mem_map.1 (List.mem_toFinset.1 h) with ⟨i, hi, rfl⟩
    exact porePath_invadedPores net tbl p i hi
  · rcases List.mem_map.1 (List.mem_toFinset.1 h) with ⟨t, ht, rfl⟩
    rcases List.mem_filter.1 ht with ⟨_, hcond⟩
    simp only [Bool.or_eq_true, decide_eq_true_eq] at hcond
    refine ⟨t, ht, rfl, ?_⟩
    rcases hcond with h1 | h1
    · exact Or.inl (porePath_invadedPores net tbl p t.ends.1 h1)
    · exact Or.inr (porePath_invadedPores net tbl p t.ends.2 h1)

theorem linked_mono {es₁ es₂ : List (ℕ × ℕ)} (hes : es₁ ⊆ es₂) {a b : ℕ}
    (h : Linked es₁ a b) : Linked es₂ a b := by
  induction h with
  | refl => exact Linked.refl
  | fwd b c _ he ih => exact Linked.fwd b c ih (hes he)
  | bwd b c _ he ih => exact Linked.bwd b c ih (hes he)

theorem releasedAt_subset (net : Network) (tbl : ℕ → Option P) (p : P) :
    releasedAt net tbl p ⊆ net.throats := by
  intro t ht
  exact (List.perm_insertionSort (keyLE tbl) net.throats).mem_iff.1
    (List.mem_filter.1 ht).1

theorem mem_releasedAt_le {net : Network} {tbl : ℕ → Option P} {p : P} {t : Throat}
    (ht : t ∈ releasedAt net tbl p) : thrW tbl t ≤ (p : WithTop P) := by
  have := (List.mem_filter.1 ht).2
  simpa using this

theorem releasedAt_mono (net : Network) (tbl : ℕ → Option P) {p q : P} (hpq : p ≤ q) :
    releasedAt net tbl p ⊆ releasedAt net tbl q := by
  intro t ht
  rcases List.mem_filter.1 ht with ⟨h1, h2⟩
  refine List.mem_filter.2 ⟨h1, ?_⟩
  simp only [decide_eq_true_eq] at h2 ⊢
  exact h2.trans (WithTop.coe_le_coe.2 hpq)

theorem invadedPores_mono (net : Network) (tbl : ℕ → Option P) {p q : P} (hpq : p ≤ q) :
    invadedPores net tbl p ⊆ invadedPores net tbl q := by
  refine reachAux_mono (net.numPores + 1) ?_ (fun x hx => hx)
  intro e he
  rcases List.mem_map.1 he with ⟨t, ht, rfl⟩
  exact List.mem_map.2 ⟨t, releasedAt_mono net tbl hpq ht, rfl⟩

theorem invadedThroats_mono (net : Network) (tbl : ℕ → Option P) {p q : P} (hpq : p ≤ q) :
    invadedThroats net tbl p ⊆ invadedThroats net tbl q := by
  intro t ht
  rcases List.mem_filter.1 ht with ⟨h1, h2⟩
  refine List.mem_filter.2 ⟨releasedAt_mono net tbl hpq h1, ?_⟩
  simp only [Bool.or_eq_true, decide_eq_true_eq] at h2 ⊢
  rcases h2 with h | h
  · exact Or.inl (invadedPores_mono net tbl hpq h)
  · exact Or.inr (invadedPores_mono net tbl hpq h)

theorem invadedSet_mono (net : Network) (tbl : ℕ → Option P) {p q : P} (hpq : p ≤ q) :
    invadedSet net tbl p ⊆ invadedSet net tbl q := by
  intro e he
  rcases Finset.mem_union.1 he with h | h
  · refine Finset.mem_union_left _ ?_
    rcases List.mem_map.1 (List.mem_toFinset.1 h) with ⟨i, hi, rfl⟩
    exact List.mem_toFinset.2 (List.mem_map.2 ⟨i, invadedPores_mono net tbl hpq hi, rfl⟩)
  · refine Finset.mem_union_right _ ?_
    rcases List.mem_map.1 (List.mem_toFinset.1 h) with ⟨t, ht, rfl⟩
    exact List.mem_toFinset.2 (List.mem_map.2 ⟨t, invadedThroats_mono net tbl hpq ht, rfl⟩)

theorem sameCluster_mono (net : Network) (tbl : ℕ → Option P) {p q : P} (hpq : p ≤ q)
    {a b : ℕ} (h : SameCluster net tbl p a b) : SameCluster net tbl q a b := by
  refine linked_mono ?_ h
  intro e he
  rcases List.mem_map.1 he with ⟨t, ht, rfl⟩
  exact List.mem_map.2 ⟨t, releasedAt_mono net tbl hpq ht, rfl⟩

theorem sorted_perm_eq {α : Type*} {r : α → α → Prop} :
    ∀ {l₁ l₂ : List α}, l₁.Perm l₂ → l₁.Pairwise r → l₂.Pairwise r →
      (∀ a ∈ l₁, ∀ b ∈ l₁, r a b → r b a → a = b) → l₁ = l₂ := by
  intro l₁
  induction l₁ with
  | nil =>
    intro l₂ hp _ _ _
    exact hp.nil_eq
  | cons a t₁ ih =>
    intro l₂ hp h₁ h₂ hanti
    cases l₂ with
    | nil => exact absurd hp.eq_nil (by simp)
    | cons b t₂ =>
      have hab : a = b := by
        by_contra hne
        have ha2 : a ∈ t₂ := by
          rcases List.mem_cons.1 (hp.subset (List.mem_cons_self a t₁)) with h | h
          · exact absurd h hne
          · exact h
        have hb1 : b ∈ t₁ := by
          rcases List.mem_cons.1 (hp.symm.subset (List.mem_cons_self b t₂)) with h | h
          · exact absurd h.symm hne
          · exact h
        have hrab : r a b := List.rel_of_pairwise_cons h₁ hb1
        have hrba : r b a := List.rel_of_pairwise_cons h₂ ha2
        exact hne (hanti a (List.mem_cons_self a t₁) b (List.mem_cons.2 (Or.inr hb1)) hrab hrba)
      subst hab
      have hpt : t₁.Perm t₂ := hp.cons_inv
      have htail : t₁ = t₂ := by
        refine ih hpt h₁.of_cons h₂.of_cons ?_
        intro x hx y hy hr hr2
        exact hanti x (List.mem_cons.2 (Or.inr hx)) y (List.mem_cons.2 (Or.inr hy)) hr hr2
      rw [htail]

theorem sortedThroats_perm_eq (n : ℕ) (inl : List ℕ) (tbl : ℕ → Option P)
    {l₁ l₂ : List Throat} (hperm : l₁.Perm l₂) (hnd : (l₁.map Throat.tid).Nodup) :
    sortedThroats ⟨n, inl, l₁⟩ tbl = sortedThroats ⟨n, inl, l₂⟩ tbl := by
  have hs₁ := List.sorted_insertionSort (keyLE tbl) l₁
  have hs₂ := List.sorted_insertionSort (keyLE tbl) l₂
  have hp : (List.insertionSort (keyLE tbl) l₁).Perm (List.insertionSort (keyLE tbl) l₂) :=
    ((List.perm_insertionSort (keyLE tbl) l₁).trans hperm).trans
      (List.perm_insertionSort (keyLE tbl) l₂).symm
  refine sorted_perm_eq hp hs₁ hs₂ ?_
  intro a ha b hb hab hba
  have ha1 : a ∈ l₁ := (List.perm_insertionSort (keyLE tbl) l₁).subset ha
  have hb1 : b ∈ l₁ := (List.perm_insertionSort (keyLE tbl) l₁).subset hb
  have htid : a.tid = b.tid := by
    rcases hab with h | ⟨he, ht⟩
    · rcases hba with h2 | ⟨he2, _⟩
      · exact absurd (h.trans h2) (lt_irrefl _)
      · exact absurd he2.symm h.ne
    · rcases hba with h2 | ⟨_, ht2⟩
      · exact absurd he.symm h2.ne
      · exact Nat.le_antisymm ht ht2
  exact List.inj_on_of_nodup_map hnd ha1 hb1 htid

theorem invadedSet_congr (net₁ net₂ : Network) (tbl : ℕ → Option P)
    (h1 : net₁.numPores = net₂.numPores) (h2 : net₁.inlets = net₂.inlets)
    (hs : sortedThroats net₁ tbl = sortedThroats net₂ tbl) (p : P) :
    invadedSet net₁ tbl p = invadedSet net₂ tbl p := by
  simp only [invadedSet, invadedThroats, invadedPores, releasedAt, hs, h1, h2]

theorem recordAux_congr {net₁ net₂ : Network} (tbl : ℕ → Option P)
    (hinv : ∀ p : P, invadedSet net₁ tbl p = invadedSet net₂ tbl p) :
    ∀ (ps : List P) (prev : Finset Elem),
      recordAux net₁ tbl ps prev = recordAux net₂ tbl ps prev := by
  intro ps
  induction ps with
  | nil => intro prev; rfl
  | cons p ps ih => intro prev; simp [recordAux, hinv p, ih]

theorem run_perm_eq {n : ℕ} {inl : List ℕ} (tbl : ℕ → Option P) (ps : List P)
    {l₁ l₂ : List Throat} (hperm : l₁.Perm l₂) (hnd : (l₁.map Throat.tid).Nodup) :
    run ⟨n, inl, l₁⟩ tbl ps = run ⟨n, inl, l₂⟩ tbl ps := by
  have hs := sortedThroats_perm_eq n inl tbl hperm hnd
  have hinv := fun p : P =>
    invadedSet_congr ⟨n, inl, l₁⟩ ⟨n, inl, l₂⟩ tbl rfl rfl hs p
  have hnil : (l₁ = []) ↔ (l₂ = []) := by
    constructor
    · intro h; subst h; exact hperm.symm.eq_nil
    · intro h; subst h; exact hperm.eq_nil
  unfold run
  rcases Decidable.em (inl = [] ∨ l₁ = []) with hc | hc
  · have hc2 : inl = [] ∨ l₂ = [] := hc.imp id hnil.1
    rw [if_pos hc, if_pos hc2]
  · have hc2 : ¬(inl = [] ∨ l₂ = []) := fun h => hc (h.imp id hnil.2)
    rw [if_neg hc, if_neg hc2, recordAux_congr tbl hinv ps]
    rfl

theorem recordAux_length (net : Network) (tbl : ℕ → Option P) :
    ∀ (ps : List P) (prev : Finset Elem), (recordAux net tbl ps prev).length = ps.length := by
  intro ps
  induction ps with
  | nil => intro prev; rfl
  | cons p ps ih => intro prev; simp [recordAux, ih]

theorem mem_recordAux_subset (net : Network) (tbl : ℕ → Option P) :
    ∀ {ps : List P} {prev : Finset Elem} {p : P} {s : Finset Elem},
      (p, s) ∈ recordAux net tbl ps prev → s ⊆ invadedSet net tbl p := by
  intro ps
  induction ps with
  | nil => intro prev p s h; simp [recordAux] at h
  | cons q ps ih =>
    intro prev p s h
    rcases List.mem_cons.1 h with h | h
    · injection h with h1 h2
      subst h1
      subst h2
      exact Finset.sdiff_subset
    · exact ih h

theorem invadedSet_subset_allElems (net : Network) (tbl : ℕ → Option P)
    (hval : ValidNet net) (p : P) :
    invadedSet net tbl p ⊆ allElems net := by
  intro e he
  rcases Finset.mem_union.1 he with h | h
  · rcases List.mem_map.1 (List.mem_toFinset.1 h) with ⟨i, hi, rfl⟩
    refine Finset.mem_union_left _ (Finset.mem_image.2 ⟨i, Finset.mem_range.2 ?_, rfl⟩)
    refine reachAux_bound (net.numPores + 1) (poreEdges (releasedAt net tbl p))
      net.inlets hval.1 ?_ i hi
    intro e he2
    rcases List.mem_map.1 he2 with ⟨t, ht, rfl⟩
    exact hval.2 t (releasedAt_subset net tbl p ht)
  · rcases List.mem_map.1 (List.mem_toFinset.1 h) with ⟨t, ht, rfl⟩
    refine Finset.mem_union_right _ (List.mem_toFinset.2 (List.mem_map.2 ⟨t, ?_, rfl⟩))
    exact releasedAt_subset net tbl p (List.mem_filter.1 ht).1

theorem satAt_nonneg (net : Network) (tbl : ℕ → Option P) (vol : Elem → ℚ) (p : P)
    (hvol : ∀ e, 0 ≤ vol e) : 0 ≤ satAt net tbl vol p :=
  div_nonneg (Finset.sum_nonneg fun e _ => hvol e)
    (Finset.sum_nonneg fun e _ => hvol e)

theorem satAt_le_one (net : Network) (tbl : ℕ → Option P) (vol : Elem → ℚ) (p : P)
    (hval : ValidNet net) (hvol : ∀ e, 0 ≤ vol e) (htot : 0 < totalVol net vol) :
    satAt net tbl vol p ≤ 1 := by
  rw [satAt, div_le_one htot]
  exact Finset.sum_le_sum_of_subset_of_nonneg
    (invadedSet_subset_allElems net tbl hval p) (fun e _ _ => hvol e)

theorem satAt_mono (net : Network) (tbl : ℕ → Option P) (vol : Elem → ℚ) {p q : P}
    (hpq : p ≤ q) (hvol : ∀ e, 0 ≤ vol e) (htot : 0 < totalVol net vol) :
    satAt net tbl vol p ≤ satAt net tbl vol q := by
  rw [satAt, satAt, div_le_div_iff_of_pos_right htot]
  exact Finset.sum_le_sum_of_subset_of_nonneg
    (invadedSet_mono net tbl hpq) (fun e _ _ => hvol e)

theorem invadedSet_eq_allElems_of_sat_one (net : Network) (tbl : ℕ → Option P)
    (vol : Elem → ℚ) (p : P) (hval : ValidNet net) (hvol : ∀ e, 0 < vol e)
    (htot : 0 < totalVol net vol) (h1 : satAt net tbl vol p = 1) :
    invadedSet net tbl p = allElems net := by
  rw [satAt, div_eq_one_iff_eq (ne_of_gt htot)] at h1
  by_contra hne
  have hsub := invadedSet_subset_allElems net tbl hval p
  obtain ⟨e, he, hne2⟩ := Finset.exists_of_ssubset ⟨hsub, fun h => hne (Finset.Subset.antisymm hsub h)⟩
  have hlt := Finset.sum_lt_sum_of_subset hsub he hne2 (hvol e) (fun j _ _ => (hvol j).le)
  rw [h1] at hlt
  exact lt_irrefl _ hlt

theorem run_ok {net : Network} {tbl : ℕ → Option P} {ps : List P}
    {rec : List (P × Finset Elem)} (h : run net tbl ps = .ok rec) :
    rec = recordAux net tbl ps (baselineSet net) := by
  unfold run at h
  rcases Decidable.em (net.inlets = [] ∨ net.throats = []) with hc | hc
  · rw [if_pos hc] at h
    exact absurd h (by simp)
  · rw [if_neg hc] at h
    injection h with h1
    exact h1.symm

theorem pcCurve_sat_mono (net : Network) (tbl : ℕ → Option P) (vol : Elem → ℚ)
    (ps : List P) (hps : ps.Pairwise (· ≤ ·)) (hvol : ∀ e, 0 ≤ vol e)
    (htot : 0 < totalVol net vol) :
    (pcCurve net tbl vol ps).Pairwise (fun a b => a.2 ≤ b.2) := by
  rw [pcCurve, List.pairwise_map]
  refine List.Pairwise.imp ?_ (List.Pairwise.sublist (List.dedup_sublist ps) hps)
  intro a b hab
  exact satAt_mono net tbl vol hab hvol htot

theorem throat_not_invadable_of_missing (net : Network) (tbl : ℕ → Option P) {j : ℕ}
    (hmiss : tbl j = none) (p : P) : Elem.throat j ∉ invadedSet net tbl p := by
  intro h
  rcases Finset.mem_union.1 h with h | h
  · rcases List.mem_map.1 (List.mem_toFinset.1 h) with ⟨i, _, he⟩
    exact absurd he (by simp)
  · rcases List.mem_map.1 (List.mem_toFinset.1 h) with ⟨t, ht, he⟩
    injection he with he
    subst he
    have htop : thrW tbl t = ⊤ := by unfold thrW; rw [hmiss]
    have hle := mem_releasedAt_le (List.mem_filter.1 ht).1
    rw [htop] at hle
    exact WithTop.coe_ne_top (top_le_iff.1 hle)

theorem totalVol9_eq : totalVol net9 vol9 = 5 := by
  have h : totalVol net9 vol9 = (allElems net9).sum (fun _ => (1 : ℚ)) := rfl
  rw [h, Finset.sum_const, nsmul_eq_mul, mul_one,
    show (allElems net9).card = 5 from by decide]
  norm_num

theorem totalVol9_pos : 0 < totalVol net9 vol9 := by
  rw [totalVol9_eq]
  norm_num

theorem satAt9_eq (p : ℤ) :
    satAt net9 tbl9 vol9 p = ((invadedSet net9 tbl9 p).card : ℚ) / 5 := by
  have h : satAt net9 tbl9 vol9 p =
      (invadedSet net9 tbl9 p).sum (fun _ => (1 : ℚ)) / totalVol net9 vol9 := rfl
  rw [h, Finset.sum_const, nsmul_eq_mul, mul_one, totalVol9_eq]

theorem baseline9_sum : (baselineSet net9).sum vol9 = 1 := by
  have h : (baselineSet net9).sum vol9 = (baselineSet net9).sum (fun _ => (1 : ℚ)) := rfl
  rw [h, Finset.sum_const, nsmul_eq_mul, mul_one,
    show (baselineSet net9).card = 1 from by decide]
  norm_num

theorem baselineSet_subset_invadedSet (net : Network) (tbl : ℕ → Option P) (p : P) :
    baselineSet net ⊆ invadedSet net tbl p := by
  intro e he
  rcases List.mem_map.1 (List.mem_toFinset.1 he) with ⟨i, hi, rfl⟩
  refine Finset.mem_union_left _ (List.mem_toFinset.2 (List.mem_map.2 ⟨i, ?_, rfl⟩))
  exact subset_reachAux _ _ _ hi

theorem disjoint_recordAux (net : Network) (tbl : ℕ → Option P) (X : Finset Elem) :
    ∀ (ps : List P) (prev : Finset Elem), ps.Pairwise (· ≤ ·) →
      (∀ q ∈ ps, prev ⊆ invadedSet net tbl q) → X ⊆ prev →
      ∀ e ∈ recordAux net tbl ps prev, Disjoint X e.2 := by
  intro ps
  induction ps with
  | nil => intro prev _ _ _ e he; simp [recordAux] at he
  | cons p rest ih =>
    intro prev hsort hprev hX e he
    rcases List.mem_cons.1 he with h | h
    · subst h
      exact Finset.sdiff_disjoint.symm.mono_left hX
    · refine ih (invadedSet net tbl p) hsort.of_cons ?_ ?_ e h
      · intro q hq
        exact invadedSet_mono net tbl (List.rel_of_pairwise_cons hsort hq)
      · exact hX.trans (hprev p (List.mem_cons_self p rest))

theorem recordAux_pairwise_disjoint (net : Network) (tbl : ℕ → Option P) :
    ∀ (ps : List P) (prev : Finset Elem), ps.Pairwise (· ≤ ·) →
      (∀ q ∈ ps, prev ⊆ invadedSet net tbl q) →
      (recordAux net tbl ps prev).Pairwise (fun a b => Disjoint a.2 b.2) := by
  intro ps
  induction ps with
  | nil => intro prev _ _; exact List.Pairwise.nil
  | cons p rest ih =>
    intro prev hsort hprev
    refine List.Pairwise.cons ?_ ?_
    · intro e he
      refine disjoint_recordAux net tbl (invadedSet net tbl p \ prev) rest
        (invadedSet net tbl p) hsort.of_cons ?_ Finset.sdiff_subset e he
      intro q hq
      exact invadedSet_mono net tbl (List.rel_of_pairwise_cons hsort hq)
    · refine ih (invadedSet net tbl p) hsort.of_cons ?_
      intro q hq
      exact invadedSet_mono net tbl (List.rel_of_pairwise_cons hsort hq)

/-- C1: Access limitation — every element recorded as invaded in the Invasion
Record is, at the pressure at which it was recorded, connected to an inlet
pore by a path of invaded elements (each step passes through a released
throat, every pore on the path is itself invaded); every invaded throat has
threshold at most the applied pressure; and, the pressure schedule being
non-decreasing, the record's newly-invaded sets are pairwise disjoint, so an
element transitions to invaded at most once per run. -/
theorem claim1_access_limitation (net : Network) (tbl : ℕ → Option P) (ps : List P)
    (rec : List (P × Finset Elem)) (p : P) (s : Finset Elem) (e : Elem)
    (hrun : run net tbl ps = Except.ok rec) (hsort : ps.Pairwise (· ≤ ·))
    (hmem : (p, s) ∈ rec) (he : e ∈ s) :
    AccessJustified net tbl p e ∧
      (∀ u ∈ invadedThroats net tbl p, thrW tbl u ≤ (p : WithTop P)) ∧
      rec.Pairwise (fun a b => Disjoint a.2 b.2) := by
  have hrec := run_ok hrun
  subst hrec
  refine ⟨accessJustified_of_mem_invadedSet net tbl p e
      (mem_recordAux_subset net tbl hmem he),
    fun u hu => mem_releasedAt_le (List.mem_filter.1 hu).1,
    recordAux_pairwise_disjoint net tbl ps (baselineSet net) hsort ?_⟩
  intro q _
  exact baselineSet_subset_invadedSet net tbl q

theorem claim1_witness :
    run net9 tbl9 [5, 10, 15, 20] =
        Except.ok (recordAux net9 tbl9 [5, 10, 15, 20] (baselineSet net9)) ∧
      ([5, 10, 15, 20] : List ℤ).Pairwise (· ≤ ·) ∧
      ((10 : ℤ), invadedSet net9 tbl9 10 \ invadedSet net9 tbl9 5) ∈
        recordAux net9 tbl9 [5, 10, 15, 20] (baselineSet net9) ∧
      Elem.pore 1 ∈ invadedSet net9 tbl9 (10 : ℤ) \ invadedSet net9 tbl9 (5 : ℤ) ∧
      (AccessJustified net9 tbl9 (10 : ℤ) (Elem.pore 1) ∧
        (∀ u ∈ invadedThroats net9 tbl9 (10 : ℤ), thrW tbl9 u ≤ ((10 : ℤ) : WithTop ℤ)) ∧
        (recordAux net9 tbl9 [5, 10, 15, 20] (baselineSet net9)).Pairwise
          (fun a b => Disjoint a.2 b.2)) :=
  ⟨rfl, by decide, by decide, by decide,
    claim1_access_limitation net9 tbl9 [5, 10, 15, 20]
      (recordAux net9 tbl9 [5, 10, 15, 20] (baselineSet net9)) 10
      (invadedSet net9 tbl9 10 \ invadedSet net9 tbl9 5) (Elem.pore 1)
      rfl (by decide) (by decide) (by decide)⟩

/-- C2: Monotonicity of invasion — for applied pressures `p₁ < p₂` the set of
invaded elements at `p₁` is a subset of the set at `p₂`, and clusters only
grow (two pores in one cluster at `p₁` are in one cluster at `p₂`, never
split). -/
theorem claim2_monotonicity (net : Network) (tbl : ℕ → Option P) {p₁ p₂ : P}
    (h : p₁ < p₂) :
    invadedSet net tbl p₁ ⊆ invadedSet net tbl p₂ ∧
      ∀ a b : ℕ, SameCluster net tbl p₁ a b → SameCluster net tbl p₂ a b :=
  ⟨invadedSet_mono net tbl h.le, fun _ _ => sameCluster_mono net tbl h.le⟩

theorem claim2_witness :
    (5 : ℤ) < 10 ∧
      (invadedSet net9 tbl9 (5 : ℤ) ⊆ invadedSet net9 tbl9 10 ∧
        ∀ a b : ℕ, SameCluster net9 tbl9 (5 : ℤ) a b → SameCluster net9 tbl9 10 a b) :=
  ⟨by decide, claim2_monotonicity net9 tbl9 (by decide)⟩

/-- C3: Determinism — two runs on identical inputs whose throat lists are
arbitrary reorderings of one another (including tied thresholds) produce
identical Invasion Records, because throats are sorted by ascending threshold
with ties broken by lowest throat identity. -/
theorem claim3_determinism (n : ℕ) (inl : List ℕ) (tbl : ℕ → Option P) (ps : List P)
    (l₁ l₂ : List Throat) (hperm : l₁.Perm l₂) (hnd : (l₁.map Throat.tid).Nodup) :
    run ⟨n, inl, l₁⟩ tbl ps = run ⟨n, inl, l₂⟩ tbl ps :=
  run_perm_eq tbl ps hperm hnd

theorem claim3_witness :
    ([⟨0, (0, 1)⟩, ⟨1, (1, 2)⟩] : List Throat).Perm [⟨1, (1, 2)⟩, ⟨0, (0, 1)⟩] ∧
      (([⟨0, (0, 1)⟩, ⟨1, (1, 2)⟩] : List Throat).map Throat.tid).Nodup ∧
      run ⟨3, [0], [⟨0, (0, 1)⟩, ⟨1, (1, 2)⟩]⟩ tbl9 [5, 10, 15, 20] =
        run ⟨3, [0], [⟨1, (1, 2)⟩, ⟨0, (0, 1)⟩]⟩ tbl9 [5, 10, 15, 20] :=
  ⟨by decide, by decide,
    claim3_determinism 3 [0] tbl9 [5, 10, 15, 20]
      [⟨0, (0, 1)⟩, ⟨1, (1, 2)⟩] [⟨1, (1, 2)⟩, ⟨0, (0, 1)⟩] (by decide) (by decide)⟩

/-- C4: Equal-threshold batch invariance — for throats all sharing one
threshold value, any permutation of their relative order leaves the set of
invaded elements at every pressure unchanged (the model applies a single
union-then-classify pass per pressure step). -/
theorem claim4_equal_threshold_batch (n : ℕ) (inl : List ℕ) (tbl : ℕ → Option P)
    (c : P) (l₁ l₂ : List Throat) (hperm : l₁.Perm l₂)
    (hnd : (l₁.map Throat.tid).Nodup) (hthr : ∀ t ∈ l₁, tbl t.tid = some c) (p : P) :
    invadedSet ⟨n, inl, l₁⟩ tbl p = invadedSet ⟨n, inl, l₂⟩ tbl p :=
  invadedSet_congr ⟨n, inl, l₁⟩ ⟨n, inl, l₂⟩ tbl rfl rfl
    (sortedThroats_perm_eq n inl tbl hperm hnd) p

theorem claim4_witness :
    ([⟨0, (0, 1)⟩, ⟨1, (1, 2)⟩] : List Throat).Perm [⟨1, (1, 2)⟩, ⟨0, (0, 1)⟩] ∧
      (([⟨0, (0, 1)⟩, ⟨1, (1, 2)⟩] : List Throat).map Throat.tid).Nodup ∧
      (∀ t ∈ ([⟨0, (0, 1)⟩, ⟨1, (1, 2)⟩] : List Throat),
        (fun _ : ℕ => some (10 : ℤ)) t.tid = some 10) ∧
      invadedSet ⟨3, [0], [⟨0, (0, 1)⟩, ⟨1, (1, 2)⟩]⟩ (fun _ => some (10 : ℤ)) 10 =
        invadedSet ⟨3, [0], [⟨1, (1, 2)⟩, ⟨0, (0, 1)⟩]⟩ (fun _ => some (10 : ℤ)) 10 :=
  ⟨by decide, by decide, by decide,
    claim4_equal_threshold_batch 3 [0] (fun _ => some (10 : ℤ)) 10
      [⟨0, (0, 1)⟩, ⟨1, (1, 2)⟩] [⟨1, (1, 2)⟩, ⟨0, (0, 1)⟩]
      (by decide) (by decide) (by decide) 10⟩

/-- C5: Fail-fast on invalid boundary conditions — with no inlet pores, or
with zero throats, the run reports `InvalidBoundaryCondition` and no Invasion
Record is observable. -/
theorem claim5_fail_fast (net : Network) (tbl : ℕ → Option P) (ps : List P)
    (h : net.inlets = [] ∨ net.throats = []) :
    run net tbl ps = Except.error DrainErr.invalidBoundaryCondition ∧
      ∀ rec : List (P × Finset Elem), run net tbl ps ≠ Except.ok rec := by
  have herr : run net tbl ps = Except.error DrainErr.invalidBoundaryCondition := by
    unfold run
    rw [if_pos h]
  refine ⟨herr, fun rec hok => ?_⟩
  rw [herr] at hok
  exact absurd hok (by simp)

theorem claim5_witness :
    ((⟨3, [], [⟨0, (0, 1)⟩]⟩ : Network).inlets = [] ∨
        (⟨3, [], [⟨0, (0, 1)⟩]⟩ : Network).throats = []) ∧
      (run ⟨3, [], [⟨0, (0, 1)⟩]⟩ tbl9 [5] =
          Except.error DrainErr.invalidBoundaryCondition ∧
        ∀ rec : List (ℤ × Finset Elem),
          run ⟨3, [], [⟨0, (0, 1)⟩]⟩ tbl9 [5] ≠ Except.ok rec) :=
  ⟨Or.inl rfl, claim5_fail_fast ⟨3, [], [⟨0, (0, 1)⟩]⟩ tbl9 [5] (Or.inl rfl)⟩

/-- C6: Permissive degradation on missing properties — a throat whose
physical input is absent from the threshold table yields a surfaced
`MissingProperty` diagnostic, the run still proceeds to completion, and that
throat is never invaded at any finite applied pressure (threshold treated as
+infinity). -/
theorem claim6_missing_property (net : Network) (tbl : ℕ → Option P) (ps : List P)
    (t : Throat) (ht : t ∈ net.throats) (hmiss : tbl t.tid = none)
    (hbc : ¬(net.inlets = [] ∨ net.throats = [])) :
    Diag.missingProperty t.tid ∈ diagnostics net tbl ∧
      (∃ rec, run net tbl ps = Except.ok rec) ∧
      ∀ p : P, Elem.throat t.tid ∉ invadedSet net tbl p := by
  refine ⟨?_, ⟨recordAux net tbl ps (baselineSet net), ?_⟩,
    fun p => throat_not_invadable_of_missing net tbl hmiss p⟩
  · unfold diagnostics
    refine List.mem_filterMap.2 ⟨t, ht, ?_⟩
    rw [hmiss]
    rfl
  · unfold run
    rw [if_neg hbc]

theorem claim6_witness :
    (⟨2, (1, 2)⟩ : Throat) ∈ (⟨3, [0], [⟨0, (0, 1)⟩, ⟨2, (1, 2)⟩]⟩ : Network).throats ∧
      tbl9 (⟨2, (1, 2)⟩ : Throat).tid = none ∧
      ¬((⟨3, [0], [⟨0, (0, 1)⟩, ⟨2, (1, 2)⟩]⟩ : Network).inlets = [] ∨
        (⟨3, [0], [⟨0, (0, 1)⟩, ⟨2, (1, 2)⟩]⟩ : Network).throats = []) ∧
      (Diag.missingProperty 2 ∈
          diagnostics (⟨3, [0], [⟨0, (0, 1)⟩, ⟨2, (1, 2)⟩]⟩ : Network) tbl9 ∧
        (∃ rec, run ⟨3, [0], [⟨0, (0, 1)⟩, ⟨2, (1, 2)⟩]⟩ tbl9 [5] = Except.ok rec) ∧
        ∀ p : ℤ, Elem.throat 2 ∉
          invadedSet (⟨3, [0], [⟨0, (0, 1)⟩, ⟨2, (1, 2)⟩]⟩ : Network) tbl9 p) :=
  ⟨by decide, rfl, by decide,
    claim6_missing_property ⟨3, [0], [⟨0, (0, 1)⟩, ⟨2, (1, 2)⟩]⟩ tbl9 [5]
      ⟨2, (1, 2)⟩ (by decide) rfl (by decide)⟩

/-- C7: Threshold Model correctness — for a throat whose physical inputs are
present, the Threshold Table entry equals `-2 σ cos θ / r`; the table is a
pure function of the inputs, produced once and read-only. -/
theorem claim7_threshold_model (props : ℕ → Option PhysProps) (j : ℕ) (q : PhysProps)
    (h : props j = some q) :
    thresholdTable props j = some (-2 * q.sigma * Real.cos q.theta / q.radius) := by
  rw [thresholdTable, h]
  rfl

theorem claim7_witness :
    (fun _ : ℕ => some (PhysProps.mk 1 0 1)) 0 = some (PhysProps.mk 1 0 1) ∧
      thresholdTable (fun _ : ℕ => some (PhysProps.mk 1 0 1)) 0 =
        some (-2 * (PhysProps.mk 1 0 1).sigma * Real.cos (PhysProps.mk 1 0 1).theta /
          (PhysProps.mk 1 0 1).radius) :=
  ⟨rfl, claim7_threshold_model (fun _ : ℕ => some (PhysProps.mk 1 0 1)) 0
    (PhysProps.mk 1 0 1) rfl⟩

/-- C8: Saturation bounds — for a valid network with positive element volumes,
the `(pressure, saturation)` sequence over a non-decreasing pressure schedule
is non-decreasing, each saturation lies in `[0, 1]`, and a saturation of
exactly 1 forces every element of the network to be reachable from an inlet
(through a path of invaded elements) at that pressure. -/
theorem claim8_saturation_bounds (net : Network) (tbl : ℕ → Option P) (vol : Elem → ℚ)
    (ps : List P) (hval : ValidNet net) (hvol : ∀ e, 0 < vol e)
    (htot : 0 < totalVol net vol) (hps : ps.Pairwise (· ≤ ·)) :
    (pcCurve net tbl vol ps).Pairwise (fun a b => a.2 ≤ b.2) ∧
      (∀ pr ∈ pcCurve net tbl vol ps, 0 ≤ pr.2 ∧ pr.2 ≤ 1) ∧
      (∀ pr ∈ pcCurve net tbl vol ps, pr.2 = 1 →
        ∀ e ∈ allElems net, AccessJustified net tbl pr.1 e) := by
  refine ⟨pcCurve_sat_mono net tbl vol ps hps (fun e => (hvol e).le) htot, ?_, ?_⟩
  · intro pr hpr
    rcases List.mem_map.1 hpr with ⟨p, _, rfl⟩
    exact ⟨satAt_nonneg net tbl vol p (fun e => (hvol e).le),
      satAt_le_one net tbl vol p hval (fun e => (hvol e).le) htot⟩
  · intro pr hpr h1
    rcases List.mem_map.1 hpr with ⟨p, _, rfl⟩
    intro e he
    have heq := invadedSet_eq_allElems_of_sat_one net tbl vol p hval hvol htot h1
    exact accessJustified_of_mem_invadedSet net tbl p e (heq ▸ he)

theorem claim8_witness :
    ValidNet net9 ∧ (∀ e, 0 < vol9 e) ∧ 0 < totalVol net9 vol9 ∧
      ([5, 10, 15, 20] : List ℤ).Pairwise (· ≤ ·) ∧
      ((pcCurve net9 tbl9 vol9 [5, 10, 15, 20]).Pairwise (fun a b => a.2 ≤ b.2) ∧
        (∀ pr ∈ pcCurve net9 tbl9 vol9 [5, 10, 15, 20], 0 ≤ pr.2 ∧ pr.2 ≤ 1) ∧
        (∀ pr ∈ pcCurve net9 tbl9 vol9 [5, 10, 15, 20], pr.2 = 1 →
          ∀ e ∈ allElems net9, AccessJustified net9 tbl9 pr.1 e)) :=
  ⟨⟨by decide, by decide⟩, fun _ => one_pos, totalVol9_pos, by decide,
    claim8_saturation_bounds net9 tbl9 vol9 [5, 10, 15, 20]
      ⟨by decide, by decide⟩ (fun _ => one_pos) totalVol9_pos (by decide)⟩

/-- C9: Concrete scenario — on the 3-pore path graph A–B–C (A = pore 0 the
inlet, Throat 0 = (A,B) with threshold 10, Throat 1 = (B,C) with threshold
20), a run over pressures [5, 10, 15, 20] has invaded exactly {A} at p = 5,
exactly {A, B, Throat 0} at p = 10 and p = 15, and all five elements at
p = 20; the saturation equals the inlet baseline at p = 5, strictly increases
from 5 to 10 and from 15 to 20, is constant from 10 to 15, and reaches 1 at
p = 20. -/
theorem claim9_concrete_scenario :
    invadedSet net9 tbl9 (5 : ℤ) = {Elem.pore 0} ∧
      invadedSet net9 tbl9 (10 : ℤ) = {Elem.pore 0, Elem.pore 1, Elem.throat 0} ∧
      invadedSet net9 tbl9 (15 : ℤ) = invadedSet net9 tbl9 (10 : ℤ) ∧
      invadedSet net9 tbl9 (20 : ℤ) =
        {Elem.pore 0, Elem.pore 1, Elem.pore 2, Elem.throat 0, Elem.throat 1} ∧
      satAt net9 tbl9 vol9 (5 : ℤ) = (baselineSet net9).sum vol9 / totalVol net9 vol9 ∧
      satAt net9 tbl9 vol9 (5 : ℤ) < satAt net9 tbl9 vol9 10 ∧
      satAt net9 tbl9 vol9 (15 : ℤ) = satAt net9 tbl9 vol9 10 ∧
      satAt net9 tbl9 vol9 (15 : ℤ) < satAt net9 tbl9 vol9 20 ∧
      satAt net9 tbl9 vol9 (20 : ℤ) = 1 := by
  have h5 : satAt net9 tbl9 vol9 (5 : ℤ) = 1 / 5 := by
    rw [satAt9_eq, show (invadedSet net9 tbl9 (5 : ℤ)).card = 1 from by decide]
    norm_num
  have h10 : satAt net9 tbl9 vol9 (10 : ℤ) = 3 / 5 := by
    rw [satAt9_eq, show (invadedSet net9 tbl9 (10 : ℤ)).card = 3 from by decide]
    norm_num
  have h15 : satAt net9 tbl9 vol9 (15 : ℤ) = 3 / 5 := by
    rw [satAt9_eq, show (invadedSet net9 tbl9 (15 : ℤ)).card = 3 from by decide]
    norm_num
  have h20 : satAt net9 tbl9 vol9 (20 : ℤ) = 1 := by
    rw [satAt9_eq, show (invadedSet net9 tbl9 (20 : ℤ)).card = 5 from by decide]
    norm_num
  refine ⟨by decide, by decide, by decide, by decide, ?_, ?_, ?_, ?_, h20⟩
  · rw [h5, baseline9_sum, totalVol9_eq]
  · rw [h5, h10]
    norm_num
  · rw [h15, h10]
  · rw [h15, h20]
    norm_num

/-- C10: Termination — for any network with valid boundary conditions the run
terminates in the `Completed` state, producing one Invasion Record entry per
requested pressure step. -/
theorem claim10_termination (net : Network) (tbl : ℕ → Option P) (ps : List P)
    (h1 : net.inlets ≠ []) (h2 : net.throats ≠ []) :
    runStatus net tbl ps = RunStatus.completed ∧
      ∃ rec, run net tbl ps = Except.ok rec ∧ rec.length = ps.length := by
  have hc : ¬(net.inlets = [] ∨ net.throats = []) := by
    rintro (h | h)
    · exact h1 h
    · exact h2 h
  have hrun : run net tbl ps = Except.ok (recordAux net tbl ps (baselineSet net)) := by
    unfold run
    rw [if_neg hc]
  refine ⟨?_, recordAux net tbl ps (baselineSet net), hrun, recordAux_length net tbl ps _⟩
  unfold runStatus
  rw [hrun]

theorem claim10_witness :
    net9.inlets ≠ [] ∧ net9.throats ≠ [] ∧
      (runStatus net9 tbl9 [5, 10, 15, 20] = RunStatus.completed ∧
        ∃ rec, run net9 tbl9 [5, 10, 15, 20] = Except.ok rec ∧
          rec.length = ([5, 10, 15, 20] : List ℤ).length) :=
  ⟨by decide, by decide,
    claim10_termination net9 tbl9 [5, 10, 15, 20] (by decide) (by decide)⟩

end PNM
